import Mathlib

/-!
Verification development for the dragonfly search core
(src/core/search/search.cc).

The development shallow-embeds, over Nat DocIds:

* the sorted-set algebra of BasicSearch::Merge / BasicSearch::UnifyResults
  (std::set_intersection and std::set_union over sorted-unique DocId
  sequences, ascending-size ordering of sub results);
* the FieldIndices registry with its all-or-nothing Add, its Remove, and its
  all_ids invariant — the concrete per-field indices live in indices.h /
  sort_indices.h, which are not part of this snapshot, so the index
  Add/Remove contract is modelled from the spec as a document set with an
  abstract acceptance predicate;
* the recursive evaluator BasicSearch::SearchGeneric with its sticky error
  string, the always-engaged ProfileBuilder (depth counter and event list),
  the Negate complement against all_ids, and the flat-vector KNN driver
  with its knn_scores_ / knn_distances_ buffers.

std::sort / std::partial_sort deliver an unspecified order among ties; both
are modelled by insertion sort with the corresponding non-strict
comparator, which realizes one of the permitted outcomes.  Wall-clock
timestamps and float distances are abstracted (distances to Nat values
through a distance function parameter, preserving every comparison the
code performs on them).
-/

namespace DflySearch

def setIntersection : List Nat → List Nat → List Nat
  | [], _ => []
  | _ :: _, [] => []
  | a :: as, b :: bs =>
    if a < b then setIntersection as (b :: bs)
    else if b < a then setIntersection (a :: as) bs
    else a :: setIntersection as bs
termination_by a b => a.length + b.length

def setUnion : List Nat → List Nat → List Nat
  | [], b => b
  | a :: as, [] => a :: as
  | a :: as, b :: bs =>
    if a < b then a :: setUnion as (b :: bs)
    else if b < a then b :: setUnion (a :: as) bs
    else a :: setUnion as bs
termination_by a b => a.length + b.length

/-- AstLogicalNode::LogicOp. -/
inductive LogicOp where
  | AND
  | OR
deriving DecidableEq, Repr

/-- BasicSearch::Merge (search.cc:245-264): merges `matched` into `current`,
with AND = std::set_intersection and OR = std::set_union over the two sorted
sets; the merged vector replaces `current`.  Modelled as returning the new
value of `current`. -/
def Merge (matched current : List Nat) (op : LogicOp) : List Nat :=
  match op with
  | .AND => setIntersection matched current
  | .OR => setUnion matched current

/-- BasicSearch::UnifyResults (search.cc:267-281): sort sub results by
ascending size, then fold Merge over them starting from the smallest. -/
def UnifyResults (sub_results : List (List Nat)) (op : LogicOp) : List Nat :=
  match List.insertionSort (fun l r => l.length ≤ r.length) sub_results with
  | [] => []
  | first :: rest => rest.foldl (fun out matched => Merge matched out op) first

/-! ### FieldIndices (search.cc:552-701)

The concrete per-field indices (TextIndex, NumericIndex, TagIndex, the vector
indices and the sort indices) live in indices.h / sort_indices.h, which are
not part of this repository snapshot.  Modelled from the spec (sections 4.2,
6, 8): an index is represented by the list of documents it holds;
`index->Add(doc, access, field)` succeeds exactly when an abstract acceptance
predicate holds for (field, doc), in which case the document is stored, and
`index->Remove(doc, access, field)` deletes the document from the index.
The acceptance predicates abstract the DocumentAccessor contents. -/

structure FieldIndices where
  indices : List (String × List Nat)
  sort_indices : List (String × List Nat)
  all_ids : List Nat
deriving DecidableEq, Repr

/-- The `try_add` lambda of FieldIndices::Add (search.cc:624-633): iterate the
container in order, call Add on each index, record each success, break on the
first failure.  Returns the updated container, the successfully added fields
in the order they were recorded, and the `was_added` outcome. -/
def tryAddAll (accept : String → Nat → Bool) (doc : Nat) :
    List (String × List Nat) → List (String × List Nat) × List String × Bool
  | [] => ([], [], true)
  | (f, docs) :: rest =>
    if accept f doc then
      let r := tryAddAll accept doc rest
      ((f, doc :: docs) :: r.1, f :: r.2.1, r.2.2)
    else
      ((f, docs) :: rest, [], false)

/-- The rollback loop of FieldIndices::Add (search.cc:641-646): for every
recorded success call index->Remove(doc, access, field); Remove (modelled
from the spec) deletes the document from the index. -/
def rollback (doc : Nat) (succ : List String) (xs : List (String × List Nat)) :
    List (String × List Nat) :=
  xs.map (fun p => if succ.contains p.1 then (p.1, p.2.filter (fun d => d != doc)) else p)

/-- The sorted insertion into all_ids_ (search.cc:648): insert at the
std::upper_bound position. -/
def insertSorted (doc : Nat) : List Nat → List Nat
  | [] => [doc]
  | x :: xs => if doc < x then doc :: x :: xs else x :: insertSorted doc xs

structure AddResult where
  state : FieldIndices
  removeCalls : List String
  ok : Bool
deriving DecidableEq, Repr

/-- FieldIndices::Add (search.cc:618-650).  `removeCalls` lists the fields on
which the rollback loop called Remove, in call order. -/
def FieldIndices.Add (fi : FieldIndices) (accept saccept : String → Nat → Bool)
    (doc : Nat) : AddResult :=
  if (tryAddAll accept doc fi.indices).2.2 then
    if (tryAddAll saccept doc fi.sort_indices).2.2 then
      ⟨⟨(tryAddAll accept doc fi.indices).1, (tryAddAll saccept doc fi.sort_indices).1,
        insertSorted doc fi.all_ids⟩, [], true⟩
    else
      ⟨⟨rollback doc (tryAddAll accept doc fi.indices).2.1 (tryAddAll accept doc fi.indices).1,
        rollback doc (tryAddAll saccept doc fi.sort_indices).2.1
          (tryAddAll saccept doc fi.sort_indices).1,
        fi.all_ids⟩,
        (tryAddAll accept doc fi.indices).2.1 ++ (tryAddAll saccept doc fi.sort_indices).2.1,
        false⟩
  else
    ⟨⟨rollback doc (tryAddAll accept doc fi.indices).2.1 (tryAddAll accept doc fi.indices).1,
      fi.sort_indices, fi.all_ids⟩,
      (tryAddAll accept doc fi.indices).2.1, false⟩

/-- FieldIndices::Remove (search.cc:652-661): Remove on every content and
sort index, then erase the (present, asserted) doc from all_ids_ at its
std::lower_bound position. -/
def FieldIndices.Remove (fi : FieldIndices) (doc : Nat) : FieldIndices :=
  ⟨fi.indices.map (fun p => (p.1, p.2.filter (fun d => d != doc))),
   fi.sort_indices.map (fun p => (p.1, p.2.filter (fun d => d != doc))),
   fi.all_ids.erase doc⟩

/-- A freshly constructed FieldIndices (search.cc:552-616): CreateIndices and
CreateSortIndices instantiate one empty index per (indexed) schema field;
all_ids_ starts empty. -/
def FieldIndices.init (fields sfields : List String) : FieldIndices :=
  ⟨fields.map (fun f => (f, [])), sfields.map (fun f => (f, [])), []⟩

/-- Reference description of which fields accept `doc`, in iteration order up
to the first failure (used to describe the recorded-successes order). -/
def acceptedRun (accept : String → Nat → Bool) (doc : Nat) :
    List (String × List Nat) → List String
  | [] => []
  | (f, _) :: rest => if accept f doc then f :: acceptedRun accept doc rest else []

/-- The successes FieldIndices::Add records before its first failure, in the
order the code records them: content indices in iteration order, then (only
when every content index succeeded) sort indices in iteration order. -/
def recordedSuccesses (accept saccept : String → Nat → Bool) (doc : Nat)
    (fi : FieldIndices) : List String :=
  let c := acceptedRun accept doc fi.indices
  if c.length = fi.indices.length then c ++ acceptedRun saccept doc fi.sort_indices
  else c

/-- The all-or-nothing outcome C1 asserts for FieldIndices::Add. -/
def AddAtomicOutcome (accept saccept : String → Nat → Bool) (doc : Nat)
    (fi : FieldIndices) : Prop :=
  ((fi.Add accept saccept doc).ok = true →
    (∀ p ∈ fi.indices, accept p.1 doc = true) ∧
    (∀ p ∈ fi.sort_indices, saccept p.1 doc = true) ∧
    (∀ p ∈ (fi.Add accept saccept doc).state.indices, doc ∈ p.2) ∧
    (∀ p ∈ (fi.Add accept saccept doc).state.sort_indices, doc ∈ p.2) ∧
    doc ∈ (fi.Add accept saccept doc).state.all_ids) ∧
  ((fi.Add accept saccept doc).ok = false →
    (∀ p ∈ (fi.Add accept saccept doc).state.indices, doc ∉ p.2) ∧
    (∀ p ∈ (fi.Add accept saccept doc).state.sort_indices, doc ∉ p.2) ∧
    (fi.Add accept saccept doc).state.all_ids = fi.all_ids)

/-- The C3 invariant: all_ids is strictly increasing and every DocId held by
any contained index appears in all_ids. -/
def FieldIndices.Inv (fi : FieldIndices) : Prop :=
  List.Sorted (· < ·) fi.all_ids ∧
  (∀ p ∈ fi.indices, ∀ d ∈ p.2, d ∈ fi.all_ids) ∧
  (∀ p ∈ fi.sort_indices, ∀ d ∈ p.2, d ∈ fi.all_ids)

/-- The C4 contract for BasicSearch::Merge on sorted-unique inputs. -/
def MergeOutcome (a b : List Nat) : Prop :=
  (∀ x, x ∈ Merge a b .AND ↔ x ∈ a ∧ x ∈ b) ∧
  (∀ x, x ∈ Merge a b .OR ↔ x ∈ a ∨ x ∈ b) ∧
  List.Sorted (· < ·) (Merge a b .AND) ∧
  List.Sorted (· < ·) (Merge a b .OR)

/-! ### The evaluator (BasicSearch, search.cc:189-523)

Shallow embedding of BasicSearch for the AST node types the claims concern:
Star, Term (the AstAffixNode REGULAR overload), Field, Logical, Negate and
Knn over a flat vector index.  The affix/tags/range leaves are leaf lookups
of the same shape as Term and are not needed by any claim; HNSW vector
indices live in external index code, so every modelled vector index is flat
(the HnswVectorIndex downcast fails).  Per-index query results are
abstracted by functions in `MIndices` (the index internals are in indices.h,
outside this snapshot); the synonyms table (GetSynonyms) is modelled as
absent, so the Term path uses the plain term.  DocIds are Nat; the float
distances returned by VectorDistance are abstracted to Nat values through
`vdist`, preserving exactly the comparisons partial_sort relies on. -/

structure FlatVectorIndex where
  dim : Nat
  vecs : Nat → List Nat

mutual
inductive AstNode where
  | star : AstNode
  | term : String → AstNode
  | fieldNode : String → AstNode → AstNode
  | logical : LogicOp → AstNodeList → AstNode
  | negate : AstNode → AstNode
  | knn : Nat → String → List Nat → AstNode → AstNode
inductive AstNodeList where
  | nil : AstNodeList
  | cons : AstNode → AstNodeList → AstNodeList
end

structure MIndices where
  allIds : List Nat
  textFields : List (String × (String → List Nat))
  vecFields : List (String × FlatVectorIndex)

/-- GetIndex-for-TextIndex (search.cc:199-224): GetBaseIndex reports
"Invalid field" when no index exists under the field, the downcast reports
"Wrong access type" when the index under the field is not a text index. -/
def GetTextIndex (I : MIndices) (f : String) : Except String (String → List Nat) :=
  match I.textFields.lookup f with
  | some m => .ok m
  | none =>
    match I.vecFields.lookup f with
    | some _ => .error ("Wrong access type for field: " ++ f)
    | none => .error ("Invalid field: " ++ f)

/-- GetIndex-for-BaseVectorIndex, same structure as `GetTextIndex`. -/
def GetVectorIndex (I : MIndices) (f : String) : Except String FlatVectorIndex :=
  match I.vecFields.lookup f with
  | some v => .ok v
  | none =>
    match I.textFields.lookup f with
    | some _ => .error ("Wrong access type for field: " ++ f)
    | none => .error ("Invalid field: " ++ f)

structure ProfileEvent where
  depth : Nat
  resultSize : Nat
deriving DecidableEq, Repr

/-- The mutable evaluator members of BasicSearch (search.cc:513-522)
together with ProfileBuilder's state (search.cc:184-186).  The descriptor
strings and wall-clock micros of profile events are not modelled. -/
structure EvalState where
  error : String
  knnScores : List (Nat × Nat)
  knnDistances : List (Nat × Nat)
  preaggTotal : Nat
  depth : Nat
  events : List ProfileEvent
deriving DecidableEq, Repr

/-- ProfileBuilder::Start (search.cc:165-168): increments depth_
(the timestamp is not modelled). -/
def profStart (s : EvalState) : EvalState := {s with depth := s.depth + 1}

/-- ProfileBuilder::Finish (search.cc:170-177): appends an event carrying
depth_ - 1 and the result size, then decrements depth_. -/
def profFinish (s : EvalState) (size : Nat) : EvalState :=
  {s with events := s.events ++ [⟨s.depth - 1, size⟩], depth := s.depth - 1}

/-- BasicSearch's state at construction: error_ empty, score and distance
buffers empty, and profile_builder_ engaged with depth_ = 0 (the default
member initializer ProfileBuilder{} value-initializes the ProfileBuilder,
which zero-initializes depth_, and keeps the optional engaged). -/
def initEvalState : EvalState := ⟨"", [], [], 0, 0, []⟩

/-- The (reflexive closure of the) lexicographic ordering that
std::pair<float, DocId>::operator< induces, used to sort knn_distances_. -/
def pairRel (a b : Nat × Nat) : Prop := a.1 < b.1 ∨ (a.1 = b.1 ∧ a.2 ≤ b.2)

instance : DecidableRel pairRel := fun a b => by unfold pairRel; infer_instance

instance : IsTotal (Nat × Nat) pairRel := ⟨by intro a b; unfold pairRel; omega⟩

instance : IsTrans (Nat × Nat) pairRel := ⟨by intro a b c; unfold pairRel; omega⟩

/-- The ranked prefix SearchKnnFlat keeps: sort the (distance, doc) pairs
(the old buffer contents plus one pair per doc of the sub result) and take
the smallest min(limit, size) to the front.  partial_sort is modelled as a
full sort followed by take, which is one of the orders partial_sort may
produce. -/
def flatRanked (vdist : List Nat → List Nat → Nat) (vi : FlatVectorIndex)
    (limit : Nat) (qvec : List Nat) (buf : List (Nat × Nat)) (sub : List Nat) :
    List (Nat × Nat) :=
  (List.insertionSort pairRel
      (buf ++ sub.map (fun d => (vdist qvec (vi.vecs d), d)))).take
    (min limit (buf ++ sub.map (fun d => (vdist qvec (vi.vecs d), d))).length)

/-- BasicSearch::SearchKnnFlat (search.cc:420-435): append one
(distance, doc) pair per doc of the sub result to knn_distances_ (reserve
does not clear the buffer), then keep the ranked prefix. -/
def searchKnnFlat (vdist : List Nat → List Nat → Nat) (vi : FlatVectorIndex)
    (limit : Nat) (qvec : List Nat) (subResult : List Nat) (s : EvalState) :
    EvalState :=
  {s with knnDistances := flatRanked vdist vi limit qvec s.knnDistances subResult}

/-- Search(AstNegateNode) (search.cc:372-383): erase from a copy of all_ids
every doc that std::binary_search finds in the sorted matched vector;
binary_search over a sorted range decides membership. -/
def negateResult (all matched : List Nat) : List Nat :=
  all.filter (fun d => !(matched.contains d))

mutual
/-- BasicSearch::SearchGeneric (search.cc:479-498) around the per-node
Search overloads: short-circuit when error_ is set, profile Start, dispatch
on the node variant, profile Finish. -/
def searchGeneric (I : MIndices) (vdist : List Nat → List Nat → Nat)
    (node : AstNode) (active_field : String) (s : EvalState) :
    List Nat × EvalState :=
  if s.error ≠ "" then ([], s)
  else
    let s0 := profStart s
    let r : List Nat × EvalState :=
      match node with
      | .star => (I.allIds, s0)
      | .term word =>
        if active_field ≠ "" then
          match GetTextIndex I active_field with
          | .ok m => (m word, s0)
          | .error e => ([], {s0 with error := e})
        else
          (UnifyResults (I.textFields.map (fun p => p.2 word)) .OR, s0)
      | .fieldNode f child => searchGeneric I vdist child f s0
      | .logical op children =>
        let r2 := evalList I vdist children active_field s0
        (UnifyResults r2.1 op, r2.2)
      | .negate child =>
        let r2 := searchGeneric I vdist child active_field s0
        (negateResult I.allIds r2.1, r2.2)
      | .knn limit f qvec filt =>
        let r2 := searchGeneric I vdist filt active_field s0
        match GetVectorIndex I f with
        | .error e => ([], {r2.2 with error := e})
        | .ok vi =>
          if vi.dim ≠ qvec.length then
            ([], {r2.2 with error :=
              "Wrong vector index dimensions, got: " ++ toString qvec.length ++
                ", expected: " ++ toString vi.dim})
          else
            let s2 := {r2.2 with preaggTotal := r2.1.length, knnScores := []}
            let s3 := searchKnnFlat vdist vi limit qvec r2.1 s2
            (s3.knnDistances.map (fun p => p.2),
              {s3 with knnScores := s3.knnDistances.map (fun p => (p.2, p.1))})
    (r.1, profFinish r.2 r.1.length)

/-- GetSubResults (search.cc:237-243) for AST children: evaluate each child
in order, threading the evaluator state. -/
def evalList (I : MIndices) (vdist : List Nat → List Nat → Nat)
    (nodes : AstNodeList) (active_field : String) (s : EvalState) :
    List (List Nat) × EvalState :=
  match nodes with
  | .nil => ([], s)
  | .cons n tl =>
    let r1 := searchGeneric I vdist n active_field s
    let r2 := evalList I vdist tl active_field r1.2
    (r1.1 :: r2.1, r2.2)
end

structure SearchResult where
  total : Nat
  ids : List Nat
  knnScores : List (Nat × Nat)
  profileEvents : List ProfileEvent
  error : String
deriving DecidableEq, Repr

/-- BasicSearch::Search(AstNode) (search.cc:500-511): evaluate the query
from the fresh evaluator state and package the SearchResult; the profile is
always extracted (profile_builder_ is engaged by default) and
ProfileBuilder::Take reverses the event list. -/
def Search (I : MIndices) (vdist : List Nat → List Nat → Nat)
    (query : AstNode) : SearchResult :=
  ⟨(searchGeneric I vdist query "" initEvalState).1.length,
   (searchGeneric I vdist query "" initEvalState).1,
   (searchGeneric I vdist query "" initEvalState).2.knnScores,
   (searchGeneric I vdist query "" initEvalState).2.events.reverse,
   (searchGeneric I vdist query "" initEvalState).2.error⟩

mutual
/-- True when no KNN node occurs in the tree. -/
def knnFree : AstNode → Bool
  | .star => true
  | .term _ => true
  | .fieldNode _ c => knnFree c
  | .logical _ children => knnFreeList children
  | .negate c => knnFree c
  | .knn _ _ _ _ => false
def knnFreeList : AstNodeList → Bool
  | .nil => true
  | .cons n tl => knnFree n && knnFreeList tl
end

/-- The index-side facts the evaluator claims rely on: all_ids is
sorted-unique and every text posting list is sorted-unique and contained in
all_ids (the FieldIndices invariant of C3 plus the index contract). -/
def PostingsOk (I : MIndices) : Prop :=
  List.Sorted (· < ·) I.allIds ∧
  ∀ p ∈ I.textFields, ∀ w, List.Sorted (· < ·) (p.2 w) ∧ ∀ d ∈ p.2 w, d ∈ I.allIds

/-- The C8 post-conditions of a flat KNN node evaluation. -/
def KnnFlatOutcome (I : MIndices) (vdist : List Nat → List Nat → Nat)
    (limit : Nat) (f : String) (qvec : List Nat) (filt : AstNode) (af : String)
    (s : EvalState) (vi : FlatVectorIndex) : Prop :=
  ((searchGeneric I vdist (.knn limit f qvec filt) af s).1).length ≤ limit ∧
  List.Chain' (· ≤ ·)
    (((searchGeneric I vdist (.knn limit f qvec filt) af s).1).map
      (fun d => vdist qvec (vi.vecs d))) ∧
  ∀ d ∈ (searchGeneric I vdist (.knn limit f qvec filt) af s).1,
    d ∈ (searchGeneric I vdist filt af s).1

/-- The amended C7 sticky-error contract: a set error short-circuits every
subsequently evaluated node (which returns empty and leaves the state
untouched), and the top-level Search carries the evaluator's final error
string and the top-level node's merged result as ids. -/
def StickyErrorOutcome (I : MIndices) (vdist : List Nat → List Nat → Nat) : Prop :=
  (∀ (n : AstNode) (af : String) (s : EvalState), s.error ≠ "" →
    searchGeneric I vdist n af s = ([], s)) ∧
  (∀ q : AstNode,
    (Search I vdist q).error = (searchGeneric I vdist q "" initEvalState).2.error ∧
    (Search I vdist q).ids = (searchGeneric I vdist q "" initEvalState).1)

/-- Index data for the C7 counterexample: doc 1 under text field "a"
(term "x" hits it); fields "b" and "c" do not exist. -/
def errFI : MIndices := ⟨[1], [("a", fun w => if w = "x" then [1] else [])], []⟩

/-- Query OR(Field "a" (Term "x"), KNN over field "c" with filter
Field "b" (Term "y")): the first child matches [1] before any error; the
KNN filter records "Invalid field: b"; the KNN vector-index lookup then
overwrites it with "Invalid field: c". -/
def errQuery : AstNode :=
  .logical .OR (.cons (.fieldNode "a" (.term "x"))
    (.cons (.knn 1 "c" [0] (.fieldNode "b" (.term "y"))) .nil))

/-- The C9 profile-depth contract at one node: evaluating a node whose
entry depth is d restores depth d, appends its own event carrying depth d
as the last new event, and every nested event carries depth at least d;
since the fresh evaluator starts at depth 0, the root node's event carries
depth 0 and, inductively, each node's event carries its nesting depth. -/
def ProfileDepthOutcome (I : MIndices) (vdist : List Nat → List Nat → Nat)
    (n : AstNode) (af : String) (s : EvalState) : Prop :=
  (searchGeneric I vdist n af s).2.depth = s.depth ∧
  ∃ ev pre last, (searchGeneric I vdist n af s).2.events = s.events ++ ev ∧
    (∀ e ∈ ev, s.depth ≤ e.depth) ∧ ev = pre ++ [last] ∧ last.depth = s.depth

/-- Index data for the C6 witness. -/
def negnegFI : MIndices := ⟨[1, 2], [("t", fun _ => [1])], []⟩

/-- Index data for the C8 witness: two docs, a 1-dimensional flat vector
field "v" storing [d] for doc d. -/
def knnWitFI : MIndices := ⟨[1, 2], [], [("v", ⟨1, fun d => [d]⟩)]⟩

/-- Index data for the C10 demonstration: docs 1..3, text field "t"
(term "x" hits doc 2), 1-dimensional flat vector field "v" storing [d] for
doc d. -/
def leakFI : MIndices :=
  ⟨[1, 2, 3], [("t", fun w => if w = "x" then [2] else [])],
   [("v", ⟨1, fun d => [d]⟩)]⟩

/-- Distance abstraction for the C10 demonstration. -/
def leakDist : List Nat → List Nat → Nat :=
  fun q v => v.headD 0 * 10 + q.headD 0

/-- Inner KNN: limit 2 over Star; it keeps docs 1 and 2. -/
def leakInner : AstNode := .knn 2 "v" [0] .star

/-- Outer KNN filter: AND of the inner KNN ([1, 2]) and Term "x" ([2]). -/
def leakFilter : AstNode :=
  .logical .AND (.cons leakInner (.cons (.term "x") .nil))

/-- Outer KNN: limit 2 over the filter. -/
def leakOuter : AstNode := .knn 2 "v" [9] leakFilter

theorem mem_setUnion (a b : List Nat) : ∀ x, x ∈ setUnion a b ↔ x ∈ a ∨ x ∈ b := by
  induction a, b using setUnion.induct with
  | case1 b => simp [setUnion]
  | case2 a as => simp [setUnion]
  | case3 a as b bs h ih =>
    intro x
    simp only [setUnion, if_pos h, List.mem_cons, ih]
    tauto
  | case4 a as b bs h h2 ih =>
    intro x
    simp only [setUnion, if_neg h, if_pos h2, List.mem_cons, ih]
    tauto
  | case5 a as b bs h h2 ih =>
    intro x
    have hab : a = b := by omega
    subst hab
    simp only [setUnion, if_neg h, List.mem_cons, ih]
    tauto

theorem mem_setIntersection {a b : List Nat} (ha : List.Sorted (· < ·) a)
    (hb : List.Sorted (· < ·) b) : ∀ x, x ∈ setIntersection a b ↔ x ∈ a ∧ x ∈ b := by
  induction a, b using setIntersection.induct with
  | case1 b => simp [setIntersection]
  | case2 a as => simp [setIntersection]
  | case3 a as b bs h ih =>
    intro x
    rw [List.sorted_cons] at ha
    simp only [setIntersection, if_pos h, ih ha.2 hb, List.mem_cons]
    constructor
    · tauto
    · rintro ⟨h1 | h1, h2⟩
      · exfalso
        subst h1
        rcases h2 with h2 | h2
        · omega
        · have := (List.sorted_cons.mp hb).1 x h2
          omega
      · tauto
  | case4 a as b bs h h2 ih =>
    intro x
    rw [List.sorted_cons] at hb
    simp only [setIntersection, if_neg h, if_pos h2, ih ha hb.2, List.mem_cons]
    constructor
    · tauto
    · rintro ⟨h1, h3 | h3⟩
      · exfalso
        subst h3
        rcases h1 with h1 | h1
        · omega
        · have := (List.sorted_cons.mp ha).1 x h1
          omega
      · tauto
  | case5 a as b bs h h2 ih =>
    intro x
    have hab : a = b := by omega
    subst hab
    rw [List.sorted_cons] at ha hb
    simp only [setIntersection, if_neg h, List.mem_cons, ih ha.2 hb.2]
    constructor
    · tauto
    · rintro ⟨h1 | h1, h3 | h3⟩ <;> tauto

theorem sorted_setIntersection {a b : List Nat} (ha : List.Sorted (· < ·) a)
    (hb : List.Sorted (· < ·) b) : List.Sorted (· < ·) (setIntersection a b) := by
  induction a, b using setIntersection.induct with
  | case1 b => simp [setIntersection]
  | case2 a as => simp [setIntersection]
  | case3 a as b bs h ih =>
    rw [List.sorted_cons] at ha
    simpa [setIntersection, if_pos h] using ih ha.2 hb
  | case4 a as b bs h h2 ih =>
    rw [List.sorted_cons] at hb
    simpa [setIntersection, if_neg h, if_pos h2] using ih ha hb.2
  | case5 a as b bs h h2 ih =>
    have hab : a = b := by omega
    subst hab
    rw [List.sorted_cons] at ha hb
    simp only [setIntersection, if_neg h, List.sorted_cons]
    refine ⟨?_, ih ha.2 hb.2⟩
    intro x hx
    have := (mem_setIntersection ha.2 hb.2 x).mp hx
    exact ha.1 x this.1

theorem sorted_setUnion {a b : List Nat} (ha : List.Sorted (· < ·) a)
    (hb : List.Sorted (· < ·) b) : List.Sorted (· < ·) (setUnion a b) := by
  induction a, b using setUnion.induct with
  | case1 b => simpa [setUnion] using hb
  | case2 a as => simpa [setUnion] using ha
  | case3 a as b bs h ih =>
    rw [List.sorted_cons] at ha
    simp only [setUnion, if_pos h, List.sorted_cons]
    refine ⟨?_, ih ha.2 hb⟩
    intro x hx
    rcases (mem_setUnion _ _ x).mp hx with hx | hx
    · exact ha.1 x hx
    · rcases List.mem_cons.mp hx with hx | hx
      · omega
      · have := (List.sorted_cons.mp hb).1 x hx
        omega
  | case4 a as b bs h h2 ih =>
    rw [List.sorted_cons] at hb
    simp only [setUnion, if_neg h, if_pos h2, List.sorted_cons]
    refine ⟨?_, ih ha hb.2⟩
    intro x hx
    rcases (mem_setUnion _ _ x).mp hx with hx | hx
    · rcases List.mem_cons.mp hx with hx | hx
      · omega
      · have := (List.sorted_cons.mp ha).1 x hx
        omega
    · exact hb.1 x hx
  | case5 a as b bs h h2 ih =>
    have hab : a = b := by omega
    subst hab
    rw [List.sorted_cons] at ha hb
    simp only [setUnion, if_neg h, List.sorted_cons]
    refine ⟨?_, ih ha.2 hb.2⟩
    intro x hx
    rcases (mem_setUnion _ _ x).mp hx with hx | hx
    · exact ha.1 x hx
    · exact hb.1 x hx

theorem sorted_Merge {a b : List Nat} (op : LogicOp) (ha : List.Sorted (· < ·) a)
    (hb : List.Sorted (· < ·) b) : List.Sorted (· < ·) (Merge a b op) := by
  cases op
  · exact sorted_setIntersection ha hb
  · exact sorted_setUnion ha hb

theorem foldl_Merge_sorted (op : LogicOp) (rest : List (List Nat)) (cur : List Nat)
    (hc : List.Sorted (· < ·) cur) (hr : ∀ l ∈ rest, List.Sorted (· < ·) l) :
    List.Sorted (· < ·) (rest.foldl (fun out matched => Merge matched out op) cur) := by
  induction rest generalizing cur with
  | nil => exact hc
  | cons m rest ih =>
    simp only [List.foldl_cons]
    refine ih (Merge m cur op) (sorted_Merge op (hr m (by simp)) hc) ?_
    intro l hl
    exact hr l (by simp [hl])

theorem foldl_Merge_mem_AND (rest : List (List Nat)) (cur : List Nat)
    (hc : List.Sorted (· < ·) cur) (hr : ∀ l ∈ rest, List.Sorted (· < ·) l) :
    ∀ x, x ∈ rest.foldl (fun out matched => Merge matched out .AND) cur ↔
      x ∈ cur ∧ ∀ l ∈ rest, x ∈ l := by
  induction rest generalizing cur with
  | nil => simp
  | cons m rest ih =>
    intro x
    have hm : List.Sorted (· < ·) m := hr m (by simp)
    have hcur : List.Sorted (· < ·) (Merge m cur .AND) := sorted_Merge .AND hm hc
    simp only [List.foldl_cons, ih (Merge m cur .AND) hcur (fun l hl => hr l (by simp [hl])) x]
    rw [show Merge m cur .AND = setIntersection m cur from rfl]
    rw [mem_setIntersection hm hc x]
    simp only [List.mem_cons]
    constructor
    · rintro ⟨⟨h1, h2⟩, h3⟩
      exact ⟨h2, fun l hl => by rcases hl with rfl | hl; exact h1; exact h3 l hl⟩
    · rintro ⟨h1, h2⟩
      exact ⟨⟨h2 m (Or.inl rfl), h1⟩, fun l hl => h2 l (Or.inr hl)⟩

theorem foldl_Merge_mem_OR (rest : List (List Nat)) (cur : List Nat) :
    ∀ x, x ∈ rest.foldl (fun out matched => Merge matched out .OR) cur ↔
      x ∈ cur ∨ ∃ l ∈ rest, x ∈ l := by
  induction rest generalizing cur with
  | nil => simp
  | cons m rest ih =>
    intro x
    simp only [List.foldl_cons, ih (Merge m cur .OR) x]
    rw [show Merge m cur .OR = setUnion m cur from rfl]
    rw [mem_setUnion m cur x]
    simp only [List.mem_cons]
    constructor
    · rintro ((h | h) | ⟨l, hl, h⟩)
      · exact Or.inr ⟨m, Or.inl rfl, h⟩
      · exact Or.inl h
      · exact Or.inr ⟨l, Or.inr hl, h⟩
    · rintro (h | ⟨l, rfl | hl, h⟩)
      · exact Or.inl (Or.inr h)
      · exact Or.inl (Or.inl h)
      · exact Or.inr ⟨l, hl, h⟩

theorem sorted_UnifyResults (sub_results : List (List Nat)) (op : LogicOp)
    (h : ∀ l ∈ sub_results, List.Sorted (· < ·) l) :
    List.Sorted (· < ·) (UnifyResults sub_results op) := by
  unfold UnifyResults
  have hp := List.perm_insertionSort (fun l r => l.length ≤ r.length) sub_results
  have hs : ∀ l ∈ List.insertionSort (fun l r => l.length ≤ r.length) sub_results,
      List.Sorted (· < ·) l := fun l hl => h l (hp.mem_iff.mp hl)
  cases hms : List.insertionSort (fun l r => l.length ≤ r.length) sub_results with
  | nil => simp
  | cons first rest =>
    rw [hms] at hs
    exact foldl_Merge_sorted op rest first (hs first (by simp))
      (fun l hl => hs l (by simp [hl]))

theorem mem_UnifyResults_AND (sub_results : List (List Nat))
    (h : ∀ l ∈ sub_results, List.Sorted (· < ·) l) :
    ∀ x, x ∈ UnifyResults sub_results .AND ↔
      sub_results ≠ [] ∧ ∀ l ∈ sub_results, x ∈ l := by
  intro x
  unfold UnifyResults
  have hp := List.perm_insertionSort (fun l r => l.length ≤ r.length) sub_results
  cases hms : List.insertionSort (fun l r => l.length ≤ r.length) sub_results with
  | nil =>
    have : sub_results = [] := by
      have := hp.symm
      rw [hms] at this
      exact this.eq_nil
    simp [this]
  | cons first rest =>
    rw [hms] at hp
    have hs : ∀ l ∈ first :: rest, List.Sorted (· < ·) l := fun l hl => h l (hp.mem_iff.mp hl)
    rw [foldl_Merge_mem_AND rest first (hs first (by simp)) (fun l hl => hs l (by simp [hl])) x]
    constructor
    · rintro ⟨h1, h2⟩
      refine ⟨?_, ?_⟩
      · intro hnil
        rw [hnil] at hp
        exact absurd hp.eq_nil (by simp)
      · intro l hl
        rcases List.mem_cons.mp (hp.mem_iff.mpr hl) with rfl | hl2
        · exact h1
        · exact h2 l hl2
    · rintro ⟨_, h2⟩
      exact ⟨h2 first (hp.mem_iff.mp (by simp)),
        fun l hl => h2 l (hp.mem_iff.mp (by simp [hl]))⟩

theorem mem_UnifyResults_OR (sub_results : List (List Nat)) :
    ∀ x, x ∈ UnifyResults sub_results .OR ↔ ∃ l ∈ sub_results, x ∈ l := by
  intro x
  unfold UnifyResults
  have hp := List.perm_insertionSort (fun l r => l.length ≤ r.length) sub_results
  cases hms : List.insertionSort (fun l r => l.length ≤ r.length) sub_results with
  | nil =>
    have : sub_results = [] := by
      have := hp.symm
      rw [hms] at this
      exact this.eq_nil
    simp [this]
  | cons first rest =>
    rw [hms] at hp
    rw [foldl_Merge_mem_OR rest first x]
    constructor
    · rintro (h1 | ⟨l, hl, h1⟩)
      · exact ⟨first, hp.mem_iff.mp (by simp), h1⟩
      · exact ⟨l, hp.mem_iff.mp (by simp [hl]), h1⟩
    · rintro ⟨l, hl, h1⟩
      rcases List.mem_cons.mp (hp.mem_iff.mpr hl) with rfl | hl2
      · exact Or.inl h1
      · exact Or.inr ⟨l, hl2, h1⟩

theorem tryAddAll_ok_shape (accept : String → Nat → Bool) (doc : Nat)
    (xs : List (String × List Nat)) (h : (tryAddAll accept doc xs).2.2 = true) :
    (tryAddAll accept doc xs).1 = xs.map (fun p => (p.1, doc :: p.2)) ∧
    (tryAddAll accept doc xs).2.1 = xs.map (fun p => p.1) ∧
    ∀ p ∈ xs, accept p.1 doc = true := by
  induction xs with
  | nil => simp [tryAddAll]
  | cons p rest ih =>
    obtain ⟨f, docs⟩ := p
    by_cases hacc : accept f doc = true
    · simp only [tryAddAll, if_pos hacc] at h ⊢
      obtain ⟨e1, e2, e3⟩ := ih h
      refine ⟨by simp [e1], by simp [e2], ?_⟩
      intro q hq
      rcases List.mem_cons.mp hq with rfl | hq
      · exact hacc
      · exact e3 q hq
    · simp only [tryAddAll, if_neg hacc] at h
      simp at h

theorem tryAddAll_trace (accept : String → Nat → Bool) (doc : Nat)
    (xs : List (String × List Nat)) :
    (tryAddAll accept doc xs).2.1 = acceptedRun accept doc xs := by
  induction xs with
  | nil => simp [tryAddAll, acceptedRun]
  | cons p rest ih =>
    obtain ⟨f, docs⟩ := p
    by_cases hacc : accept f doc = true
    · simp [tryAddAll, acceptedRun, if_pos hacc, ih]
    · simp [tryAddAll, acceptedRun, if_neg hacc]

theorem tryAddAll_fail_length (accept : String → Nat → Bool) (doc : Nat)
    (xs : List (String × List Nat)) (h : (tryAddAll accept doc xs).2.2 = false) :
    (acceptedRun accept doc xs).length < xs.length := by
  induction xs with
  | nil => simp [tryAddAll] at h
  | cons p rest ih =>
    obtain ⟨f, docs⟩ := p
    by_cases hacc : accept f doc = true
    · simp only [tryAddAll, if_pos hacc] at h
      simp only [acceptedRun, if_pos hacc, List.length_cons]
      exact Nat.succ_lt_succ (ih h)
    · simp only [acceptedRun, if_neg hacc, List.length_nil, List.length_cons]
      omega

theorem tryAddAll_entry_shape (accept : String → Nat → Bool) (doc : Nat)
    (xs : List (String × List Nat)) :
    ∀ p ∈ (tryAddAll accept doc xs).1,
      ((tryAddAll accept doc xs).2.1.contains p.1 = true ∧
        ∃ q, (p.1, q) ∈ xs ∧ p.2 = doc :: q) ∨ p ∈ xs := by
  induction xs with
  | nil => simp [tryAddAll]
  | cons hd rest ih =>
    obtain ⟨f, docs⟩ := hd
    by_cases hacc : accept f doc = true
    · simp only [tryAddAll, if_pos hacc]
      intro p hp0
      rcases List.mem_cons.mp hp0 with rfl | hp
      · exact Or.inl ⟨by simp, docs, by simp, rfl⟩
      · rcases ih p hp with ⟨hc, q, hq, he⟩ | hmem
        · refine Or.inl ⟨?_, q, List.mem_cons_of_mem _ hq, he⟩
          rw [List.contains_cons]
          simp only [Bool.or_eq_true, beq_iff_eq]
          exact Or.inr (by simpa using hc)
        · exact Or.inr (List.mem_cons_of_mem _ hmem)
    · simp only [tryAddAll, if_neg hacc]
      intro p hp
      exact Or.inr hp

theorem mem_insertSorted (doc : Nat) (l : List Nat) :
    ∀ x, x ∈ insertSorted doc l ↔ x = doc ∨ x ∈ l := by
  induction l with
  | nil => simp [insertSorted]
  | cons y ys ih =>
    intro x
    by_cases h : doc < y
    · simp [insertSorted, if_pos h]
    · simp only [insertSorted, if_neg h, List.mem_cons, ih]
      tauto

theorem sorted_insertSorted (doc : Nat) (l : List Nat)
    (hs : List.Sorted (· < ·) l) (hn : doc ∉ l) :
    List.Sorted (· < ·) (insertSorted doc l) := by
  induction l with
  | nil => simp [insertSorted]
  | cons y ys ih =>
    rw [List.sorted_cons] at hs
    by_cases h : doc < y
    · have heq : insertSorted doc (y :: ys) = doc :: y :: ys := by
        simp [insertSorted, if_pos h]
      rw [heq, List.sorted_cons]
      refine ⟨?_, List.sorted_cons.mpr hs⟩
      intro b hb
      rcases List.mem_cons.mp hb with rfl | hb
      · exact h
      · exact lt_trans h (hs.1 b hb)
    · have hne : doc ≠ y := fun he => hn (he ▸ List.mem_cons_self y ys)
      have hgt : y < doc := by omega
      have heq : insertSorted doc (y :: ys) = y :: insertSorted doc ys := by
        simp [insertSorted, if_neg h]
      rw [heq, List.sorted_cons]
      refine ⟨?_, ih hs.2 (fun hd => hn (List.mem_cons_of_mem y hd))⟩
      intro b hb
      rcases (mem_insertSorted doc ys b).mp hb with rfl | hb
      · exact hgt
      · exact hs.1 b hb

theorem rollback_no_doc (accept : String → Nat → Bool) (doc : Nat)
    (xs : List (String × List Nat)) (h : ∀ p ∈ xs, doc ∉ p.2) :
    ∀ p ∈ rollback doc (tryAddAll accept doc xs).2.1 (tryAddAll accept doc xs).1,
      doc ∉ p.2 := by
  intro p hp
  rcases List.mem_map.mp hp with ⟨e, he, heq⟩
  rcases tryAddAll_entry_shape accept doc xs e he with ⟨hc, q, hq, hcons⟩ | hmem
  · rw [if_pos hc] at heq
    rw [← heq]
    intro hmem2
    rcases List.mem_filter.mp hmem2 with ⟨_, hne⟩
    simp at hne
  · by_cases hc : ((tryAddAll accept doc xs).2.1).contains e.1 = true
    · rw [if_pos hc] at heq
      rw [← heq]
      intro hmem2
      rcases List.mem_filter.mp hmem2 with ⟨_, hne⟩
      simp at hne
    · rw [if_neg hc] at heq
      rw [← heq]
      exact h e hmem

theorem rollback_tryAdd_members (accept : String → Nat → Bool) (doc : Nat)
    (xs : List (String × List Nat)) :
    ∀ p ∈ rollback doc (tryAddAll accept doc xs).2.1 (tryAddAll accept doc xs).1,
      ∀ d ∈ p.2, ∃ e ∈ xs, d ∈ e.2 := by
  intro p hp d hd
  rcases List.mem_map.mp hp with ⟨e, he, heq⟩
  rcases tryAddAll_entry_shape accept doc xs e he with ⟨hc, q, hq, hcons⟩ | hmem
  · rw [if_pos hc] at heq
    rw [← heq] at hd
    rcases List.mem_filter.mp hd with ⟨hd2, hne⟩
    rw [hcons] at hd2
    rcases List.mem_cons.mp hd2 with rfl | hd3
    · simp at hne
    · exact ⟨(e.1, q), hq, hd3⟩
  · by_cases hc : ((tryAddAll accept doc xs).2.1).contains e.1 = true
    · rw [if_pos hc] at heq
      rw [← heq] at hd
      exact ⟨e, hmem, (List.mem_filter.mp hd).1⟩
    · rw [if_neg hc] at heq
      rw [← heq] at hd
      exact ⟨e, hmem, hd⟩

/-- C1: FieldIndices::Add is all-or-nothing.  For a document not yet held by
any contained index: if Add returns true then every content index and sort
index has accepted the document and now holds it, and the document has been
inserted into all_ids; if Add returns false then no contained index holds
the document and all_ids is unchanged. -/
theorem fieldIndices_Add_atomic (accept saccept : String → Nat → Bool) (doc : Nat)
    (fi : FieldIndices) (h1 : ∀ p ∈ fi.indices, doc ∉ p.2)
    (h2 : ∀ p ∈ fi.sort_indices, doc ∉ p.2) :
    AddAtomicOutcome accept saccept doc fi := by
  constructor
  · intro hok
    by_cases ha : (tryAddAll accept doc fi.indices).2.2 = true
    · by_cases hb : (tryAddAll saccept doc fi.sort_indices).2.2 = true
      · obtain ⟨e1, _, e3⟩ := tryAddAll_ok_shape accept doc fi.indices ha
        obtain ⟨f1, _, f3⟩ := tryAddAll_ok_shape saccept doc fi.sort_indices hb
        simp only [FieldIndices.Add, if_pos ha, if_pos hb]
        refine ⟨e3, f3, ?_, ?_, ?_⟩
        · rw [e1]
          intro p hp
          rcases List.mem_map.mp hp with ⟨q, _, rfl⟩
          simp
        · rw [f1]
          intro p hp
          rcases List.mem_map.mp hp with ⟨q, _, rfl⟩
          simp
        · exact (mem_insertSorted doc fi.all_ids doc).mpr (Or.inl rfl)
      · exfalso
        simp only [FieldIndices.Add, if_pos ha, if_neg hb] at hok
        simp at hok
    · exfalso
      simp only [FieldIndices.Add, if_neg ha] at hok
      simp at hok
  · intro hok
    by_cases ha : (tryAddAll accept doc fi.indices).2.2 = true
    · by_cases hb : (tryAddAll saccept doc fi.sort_indices).2.2 = true
      · exfalso
        simp only [FieldIndices.Add, if_pos ha, if_pos hb] at hok
        simp at hok
      · simp only [FieldIndices.Add, if_pos ha, if_neg hb]
        exact ⟨rollback_no_doc accept doc fi.indices h1,
          rollback_no_doc saccept doc fi.sort_indices h2, by trivial⟩
    · simp only [FieldIndices.Add, if_neg ha]
      exact ⟨rollback_no_doc accept doc fi.indices h1, h2, by trivial⟩

theorem fieldIndices_Add_atomic_witness :
    (∀ p ∈ (FieldIndices.mk [("a", [])] [("a", [])] []).indices, 7 ∉ p.2) ∧
    (∀ p ∈ (FieldIndices.mk [("a", [])] [("a", [])] []).sort_indices, 7 ∉ p.2) ∧
    AddAtomicOutcome (fun _ _ => true) (fun _ _ => true) 7
      (FieldIndices.mk [("a", [])] [("a", [])] []) :=
  ⟨by decide, by decide,
    fieldIndices_Add_atomic (fun _ _ => true) (fun _ _ => true) 7
      (FieldIndices.mk [("a", [])] [("a", [])] []) (by decide) (by decide)⟩

/-- C2 (amended): when some index rejects the document during
FieldIndices::Add, Remove(doc, accessor, field) is called on every
previously recorded success in the same order in which those indices
accepted the document (content indices in iteration order, then sort
indices) — not in reverse — and Add returns false. -/
theorem fieldIndices_rollback_forward_order (accept saccept : String → Nat → Bool)
    (doc : Nat) (fi : FieldIndices)
    (h : (fi.Add accept saccept doc).ok = false) :
    (fi.Add accept saccept doc).removeCalls = recordedSuccesses accept saccept doc fi := by
  by_cases ha : (tryAddAll accept doc fi.indices).2.2 = true
  · by_cases hb : (tryAddAll saccept doc fi.sort_indices).2.2 = true
    · exfalso
      simp only [FieldIndices.Add, if_pos ha, if_pos hb] at h
      simp at h
    · simp only [FieldIndices.Add, if_pos ha, if_neg hb]
      obtain ⟨_, e2, _⟩ := tryAddAll_ok_shape accept doc fi.indices ha
      have hlen : (acceptedRun accept doc fi.indices).length = fi.indices.length := by
        rw [← tryAddAll_trace, e2, List.length_map]
      unfold recordedSuccesses
      rw [if_pos hlen, ← tryAddAll_trace, ← tryAddAll_trace]
  · simp only [FieldIndices.Add, if_neg ha]
    have hfail := tryAddAll_fail_length accept doc fi.indices (by simpa using ha)
    unfold recordedSuccesses
    rw [if_neg (by omega), ← tryAddAll_trace]

theorem fieldIndices_rollback_forward_order_witness :
    ((FieldIndices.mk [("a", []), ("b", []), ("c", [])] [] []).Add
      (fun f _ => f != "c") (fun _ _ => true) 7).ok = false ∧
    ((FieldIndices.mk [("a", []), ("b", []), ("c", [])] [] []).Add
      (fun f _ => f != "c") (fun _ _ => true) 7).removeCalls =
      recordedSuccesses (fun f _ => f != "c") (fun _ _ => true) 7
        (FieldIndices.mk [("a", []), ("b", []), ("c", [])] [] []) :=
  ⟨by decide,
    fieldIndices_rollback_forward_order (fun f _ => f != "c") (fun _ _ => true) 7
      (FieldIndices.mk [("a", []), ("b", []), ("c", [])] [] []) (by decide)⟩

/-- C2 counterexample: a concrete run refuting the reverse order: indices "a" and "b"
accept doc 7 in that order, "c" rejects; the rollback Remove calls happen in
the order ["a", "b"], not in the reverse order ["b", "a"]. -/
theorem fieldIndices_rollback_not_reverse :
    ((FieldIndices.mk [("a", []), ("b", []), ("c", [])] [] []).Add
      (fun f _ => f != "c") (fun _ _ => true) 7).ok = false ∧
    ((FieldIndices.mk [("a", []), ("b", []), ("c", [])] [] []).Add
      (fun f _ => f != "c") (fun _ _ => true) 7).removeCalls = ["a", "b"] ∧
    (["a", "b"] : List String) ≠ List.reverse ["a", "b"] := by
  refine ⟨by decide, by decide, by decide⟩

/-- C3: all_ids is strictly increasing and every DocId held by any
contained index also appears in all_ids; this invariant holds for a freshly
constructed FieldIndices and is preserved by every Add of a DocId not
already present and by every Remove of a present DocId. -/
theorem fieldIndices_invariant :
    (∀ fields sfields : List String, (FieldIndices.init fields sfields).Inv) ∧
    (∀ (accept saccept : String → Nat → Bool) (doc : Nat) (fi : FieldIndices),
      fi.Inv → doc ∉ fi.all_ids → ((fi.Add accept saccept doc).state).Inv) ∧
    (∀ (doc : Nat) (fi : FieldIndices), fi.Inv → doc ∈ fi.all_ids →
      (fi.Remove doc).Inv) := by
  refine ⟨?_, ?_, ?_⟩
  · intro fields sfields
    refine ⟨by simp [FieldIndices.init], ?_, ?_⟩ <;>
      · intro p hp
        simp only [FieldIndices.init] at hp
        rcases List.mem_map.mp hp with ⟨f, _, rfl⟩
        intro d hd
        simp at hd
  · intro accept saccept doc fi hInv hdoc
    by_cases ha : (tryAddAll accept doc fi.indices).2.2 = true
    · by_cases hb : (tryAddAll saccept doc fi.sort_indices).2.2 = true
      · obtain ⟨e1, _, _⟩ := tryAddAll_ok_shape accept doc fi.indices ha
        obtain ⟨f1, _, _⟩ := tryAddAll_ok_shape saccept doc fi.sort_indices hb
        simp only [FieldIndices.Add, if_pos ha, if_pos hb]
        refine ⟨sorted_insertSorted doc fi.all_ids hInv.1 hdoc, ?_, ?_⟩
        · rw [e1]
          intro p hp d hd
          rcases List.mem_map.mp hp with ⟨q, hq, rfl⟩
          rcases List.mem_cons.mp hd with rfl | hd2
          · exact (mem_insertSorted d fi.all_ids d).mpr (Or.inl rfl)
          · exact (mem_insertSorted doc fi.all_ids d).mpr
              (Or.inr (hInv.2.1 q hq d hd2))
        · rw [f1]
          intro p hp d hd
          rcases List.mem_map.mp hp with ⟨q, hq, rfl⟩
          rcases List.mem_cons.mp hd with rfl | hd2
          · exact (mem_insertSorted d fi.all_ids d).mpr (Or.inl rfl)
          · exact (mem_insertSorted doc fi.all_ids d).mpr
              (Or.inr (hInv.2.2 q hq d hd2))
      · simp only [FieldIndices.Add, if_pos ha, if_neg hb]
        refine ⟨hInv.1, ?_, ?_⟩
        · intro p hp d hd
          obtain ⟨e, he, hmem⟩ := rollback_tryAdd_members accept doc fi.indices p hp d hd
          exact hInv.2.1 e he d hmem
        · intro p hp d hd
          obtain ⟨e, he, hmem⟩ := rollback_tryAdd_members saccept doc fi.sort_indices p hp d hd
          exact hInv.2.2 e he d hmem
    · simp only [FieldIndices.Add, if_neg ha]
      refine ⟨hInv.1, ?_, hInv.2.2⟩
      intro p hp d hd
      obtain ⟨e, he, hmem⟩ := rollback_tryAdd_members accept doc fi.indices p hp d hd
      exact hInv.2.1 e he d hmem
  · intro doc fi hInv hdoc
    refine ⟨List.Pairwise.sublist (List.erase_sublist doc fi.all_ids) hInv.1, ?_, ?_⟩
    · intro p hp d hd
      rcases List.mem_map.mp hp with ⟨e, he, rfl⟩
      rcases List.mem_filter.mp hd with ⟨hd2, hne⟩
      have hne2 : d ≠ doc := by simpa using hne
      exact (List.mem_erase_of_ne hne2).mpr (hInv.2.1 e he d hd2)
    · intro p hp d hd
      rcases List.mem_map.mp hp with ⟨e, he, rfl⟩
      rcases List.mem_filter.mp hd with ⟨hd2, hne⟩
      have hne2 : d ≠ doc := by simpa using hne
      exact (List.mem_erase_of_ne hne2).mpr (hInv.2.2 e he d hd2)

theorem fieldIndices_invariant_witness :
    ((FieldIndices.mk [("a", [2])] [] [2]).Inv ∧ (3:Nat) ∉ [2]) ∧
    (((FieldIndices.mk [("a", [2])] [] [2]).Add (fun _ _ => true)
      (fun _ _ => true) 3).state).Inv :=
  ⟨⟨by constructor; decide; constructor <;> decide, by decide⟩,
    fieldIndices_invariant.2.1 (fun _ _ => true) (fun _ _ => true) 3
      (FieldIndices.mk [("a", [2])] [] [2])
      (by constructor; decide; constructor <;> decide) (by decide)⟩

/-- C4: for sorted-unique (strictly ascending) inputs, BasicSearch::Merge
with AND produces exactly the set intersection and with OR exactly the set
union, and in both cases the output is again sorted-unique. -/
theorem merge_intersection_union (a b : List Nat) (ha : List.Sorted (· < ·) a)
    (hb : List.Sorted (· < ·) b) : MergeOutcome a b :=
  ⟨mem_setIntersection ha hb, mem_setUnion a b,
    sorted_setIntersection ha hb, sorted_setUnion ha hb⟩

theorem merge_intersection_union_witness :
    List.Sorted (· < ·) [1, 2] ∧ List.Sorted (· < ·) [2, 3] ∧
    MergeOutcome [1, 2] [2, 3] :=
  ⟨by decide, by decide, merge_intersection_union [1, 2] [2, 3] (by decide) (by decide)⟩

/-- C5: the DocId set UnifyResults produces over sorted-unique child
results is independent of the order of the children: for every permutation
of the child list (in particular the ascending-size sort applied
internally, and the swap of the two operands of AND or OR) the folded
result has exactly the same members. -/
theorem unifyResults_order_invariant (subs1 subs2 : List (List Nat)) (op : LogicOp)
    (h : ∀ l ∈ subs1, List.Sorted (· < ·) l) (hp : subs1.Perm subs2) :
    ∀ x, x ∈ UnifyResults subs1 op ↔ x ∈ UnifyResults subs2 op := by
  intro x
  have h2 : ∀ l ∈ subs2, List.Sorted (· < ·) l := fun l hl => h l (hp.mem_iff.mpr hl)
  cases op
  · rw [mem_UnifyResults_AND subs1 h x, mem_UnifyResults_AND subs2 h2 x]
    constructor
    · rintro ⟨hne, hall⟩
      refine ⟨fun hnil => hne ((hnil ▸ hp).eq_nil), fun l hl => hall l (hp.mem_iff.mpr hl)⟩
    · rintro ⟨hne, hall⟩
      refine ⟨fun hnil => hne ((hnil ▸ hp.symm).eq_nil), fun l hl => hall l (hp.mem_iff.mp hl)⟩
  · rw [mem_UnifyResults_OR subs1 x, mem_UnifyResults_OR subs2 x]
    constructor
    · rintro ⟨l, hl, hx⟩
      exact ⟨l, hp.mem_iff.mp hl, hx⟩
    · rintro ⟨l, hl, hx⟩
      exact ⟨l, hp.mem_iff.mpr hl, hx⟩

theorem unifyResults_order_invariant_witness :
    (∀ l ∈ [[1, 2], [2, 3]], List.Sorted (· < ·) l) ∧
    ([[1, 2], [2, 3]] : List (List Nat)).Perm [[2, 3], [1, 2]] ∧
    (∀ x, x ∈ UnifyResults [[1, 2], [2, 3]] .AND ↔ x ∈ UnifyResults [[2, 3], [1, 2]] .AND) :=
  ⟨by decide, by decide,
    unifyResults_order_invariant [[1, 2], [2, 3]] [[2, 3], [1, 2]] .AND
      (by decide) (by decide)⟩

theorem searchGeneric_error_ne (I : MIndices) (vdist : List Nat → List Nat → Nat)
    (n : AstNode) (af : String) (s : EvalState) (h : ¬ s.error = "") :
    searchGeneric I vdist n af s = ([], s) := by
  rw [searchGeneric]
  simp [h]

theorem profStart_error (s : EvalState) : (profStart s).error = s.error := rfl

theorem profFinish_error (s : EvalState) (k : Nat) : (profFinish s k).error = s.error := rfl

mutual

theorem searchGeneric_state_sim (n : AstNode) :
    ∀ (I : MIndices) (vdist : List Nat → List Nat → Nat) (af : String)
      (s1 s2 : EvalState), knnFree n = true → (s1.error = "" ↔ s2.error = "") →
    (searchGeneric I vdist n af s1).1 = (searchGeneric I vdist n af s2).1 ∧
    ((searchGeneric I vdist n af s1).2.error = "" ↔
      (searchGeneric I vdist n af s2).2.error = "") := by
  intro I vdist af s1 s2 hk hiff
  by_cases h1 : s1.error = ""
  · have h2 : s2.error = "" := hiff.mp h1
    cases n with
    | star =>
      rw [searchGeneric, searchGeneric]
      simp [profFinish, profStart, h1, h2]
    | term word =>
      rw [searchGeneric, searchGeneric]
      simp only [ne_eq, h1, h2, not_true_eq_false, if_false]
      by_cases haf : af = ""
      · subst haf
        simp [profFinish, profStart, h1, h2]
      · simp only [if_pos haf]
        cases hget : GetTextIndex I af with
        | ok m => simp [profFinish, profStart, h1, h2]
        | error e => simp [profFinish, profStart, h1, h2]
    | fieldNode f child =>
      have hk2 : knnFree child = true := by simpa [knnFree] using hk
      have hrec := searchGeneric_state_sim child I vdist f (profStart s1) (profStart s2)
        hk2 (by simpa [profStart_error] using hiff)
      rw [searchGeneric, searchGeneric]
      simp only [ne_eq, h1, h2, not_true_eq_false, if_false]
      exact ⟨by rw [hrec.1], by simpa [profFinish_error] using hrec.2⟩
    | logical op children =>
      have hk2 : knnFreeList children = true := by simpa [knnFree] using hk
      have hrec := evalList_state_sim children I vdist af (profStart s1) (profStart s2)
        hk2 (by simpa [profStart_error] using hiff)
      rw [searchGeneric, searchGeneric]
      simp only [ne_eq, h1, h2, not_true_eq_false, if_false]
      exact ⟨by rw [hrec.1], by simpa [profFinish_error] using hrec.2⟩
    | negate child =>
      have hk2 : knnFree child = true := by simpa [knnFree] using hk
      have hrec := searchGeneric_state_sim child I vdist af (profStart s1) (profStart s2)
        hk2 (by simpa [profStart_error] using hiff)
      rw [searchGeneric, searchGeneric]
      simp only [ne_eq, h1, h2, not_true_eq_false, if_false]
      exact ⟨by rw [hrec.1], by simpa [profFinish_error] using hrec.2⟩
    | knn limit f qvec filt => simp [knnFree] at hk
  · have h2 : ¬ s2.error = "" := fun h => h1 (hiff.mpr h)
    rw [searchGeneric_error_ne I vdist n af s1 h1,
      searchGeneric_error_ne I vdist n af s2 h2]
    exact ⟨rfl, hiff⟩

theorem evalList_state_sim (l : AstNodeList) :
    ∀ (I : MIndices) (vdist : List Nat → List Nat → Nat) (af : String)
      (s1 s2 : EvalState), knnFreeList l = true → (s1.error = "" ↔ s2.error = "") →
    (evalList I vdist l af s1).1 = (evalList I vdist l af s2).1 ∧
    ((evalList I vdist l af s1).2.error = "" ↔
      (evalList I vdist l af s2).2.error = "") := by
  intro I vdist af s1 s2 hk hiff
  cases l with
  | nil =>
    rw [evalList, evalList]
    exact ⟨rfl, hiff⟩
  | cons n tl =>
    have hk1 : knnFree n = true := by
      simp [knnFreeList] at hk
      exact hk.1
    have hk2 : knnFreeList tl = true := by
      simp [knnFreeList] at hk
      exact hk.2
    have hn := searchGeneric_state_sim n I vdist af s1 s2 hk1 hiff
    have htl := evalList_state_sim tl I vdist af
      (searchGeneric I vdist n af s1).2 (searchGeneric I vdist n af s2).2 hk2 hn.2
    rw [evalList, evalList]
    exact ⟨by rw [hn.1, htl.1], htl.2⟩

end

theorem lookup_mem {β : Type} (k : String) (v : β) (l : List (String × β)) :
    l.lookup k = some v → (k, v) ∈ l := by
  induction l with
  | nil => intro h; simp [List.lookup] at h
  | cons p tl ih =>
    obtain ⟨k2, v2⟩ := p
    intro h
    simp only [List.lookup] at h
    by_cases he : (k == k2) = true
    · rw [he] at h
      simp only [Option.some.injEq] at h
      have hk : k = k2 := by simpa using he
      subst hk
      subst h
      exact List.mem_cons_self _ _
    · rw [Bool.not_eq_true] at he
      rw [he] at h
      exact List.mem_cons_of_mem _ (ih h)

mutual

theorem searchGeneric_result_wf (n : AstNode) :
    ∀ (I : MIndices) (vdist : List Nat → List Nat → Nat) (af : String)
      (s : EvalState), PostingsOk I → knnFree n = true →
    List.Sorted (· < ·) (searchGeneric I vdist n af s).1 ∧
    ∀ d ∈ (searchGeneric I vdist n af s).1, d ∈ I.allIds := by
  intro I vdist af s hok hk
  by_cases h1 : s.error = ""
  · cases n with
    | star =>
      rw [searchGeneric]
      simp only [ne_eq, h1, not_true_eq_false, if_false]
      exact ⟨hok.1, fun d hd => hd⟩
    | term word =>
      rw [searchGeneric]
      simp only [ne_eq, h1, not_true_eq_false, if_false]
      by_cases haf : af = ""
      · subst haf
        simp only [ne_eq, not_true_eq_false, if_false]
        constructor
        · apply sorted_UnifyResults
          intro l hl
          rcases List.mem_map.mp hl with ⟨p, hp, rfl⟩
          exact (hok.2 p hp word).1
        · intro d hd
          rcases (mem_UnifyResults_OR _ d).mp hd with ⟨l, hl, hdl⟩
          rcases List.mem_map.mp hl with ⟨p, hp, rfl⟩
          exact (hok.2 p hp word).2 d hdl
      · simp only [if_pos haf]
        cases hget : GetTextIndex I af with
        | ok m =>
          have hmem : (af, m) ∈ I.textFields := by
            unfold GetTextIndex at hget
            cases hlook : I.textFields.lookup af with
            | some m2 =>
              rw [hlook] at hget
              simp only [Except.ok.injEq] at hget
              exact hget ▸ lookup_mem af m2 I.textFields hlook
            | none =>
              rw [hlook] at hget
              cases hlook2 : I.vecFields.lookup af with
              | some v =>
                rw [hlook2] at hget
                simp at hget
              | none =>
                rw [hlook2] at hget
                simp at hget
          exact ⟨(hok.2 (af, m) hmem word).1, (hok.2 (af, m) hmem word).2⟩
        | error e => simp
    | fieldNode f child =>
      have hk2 : knnFree child = true := by simpa [knnFree] using hk
      have hrec := searchGeneric_result_wf child I vdist f (profStart s) hok hk2
      rw [searchGeneric]
      simp only [ne_eq, h1, not_true_eq_false, if_false]
      exact hrec
    | logical op children =>
      have hk2 : knnFreeList children = true := by simpa [knnFree] using hk
      have hrec := evalList_result_wf children I vdist af (profStart s) hok hk2
      rw [searchGeneric]
      simp only [ne_eq, h1, not_true_eq_false, if_false]
      have hsorted : ∀ l ∈ (evalList I vdist children af (profStart s)).1,
          List.Sorted (· < ·) l := fun l hl => (hrec l hl).1
      constructor
      · exact sorted_UnifyResults _ op hsorted
      · intro d hd
        cases op with
        | AND =>
          rcases (mem_UnifyResults_AND _ hsorted d).mp hd with ⟨hne, hall⟩
          rcases List.exists_mem_of_ne_nil _ hne with ⟨l, hl⟩
          exact (hrec l hl).2 d (hall l hl)
        | OR =>
          rcases (mem_UnifyResults_OR _ d).mp hd with ⟨l, hl, hdl⟩
          exact (hrec l hl).2 d hdl
    | negate child =>
      rw [searchGeneric]
      simp only [ne_eq, h1, not_true_eq_false, if_false]
      constructor
      · exact List.Sorted.filter _ hok.1
      · intro d hd
        exact (List.mem_filter.mp hd).1
    | knn limit f qvec filt => simp [knnFree] at hk
  · rw [searchGeneric_error_ne I vdist n af s h1]
    exact ⟨by simp, by simp⟩

theorem evalList_result_wf (l : AstNodeList) :
    ∀ (I : MIndices) (vdist : List Nat → List Nat → Nat) (af : String)
      (s : EvalState), PostingsOk I → knnFreeList l = true →
    ∀ r ∈ (evalList I vdist l af s).1,
      List.Sorted (· < ·) r ∧ ∀ d ∈ r, d ∈ I.allIds := by
  intro I vdist af s hok hk
  cases l with
  | nil =>
    rw [evalList]
    simp
  | cons n tl =>
    have hk1 : knnFree n = true := by
      simp [knnFreeList] at hk
      exact hk.1
    have hk2 : knnFreeList tl = true := by
      simp [knnFreeList] at hk
      exact hk.2
    rw [evalList]
    intro r hr
    rcases List.mem_cons.mp hr with rfl | hr2
    · exact searchGeneric_result_wf n I vdist af s hok hk1
    · exact evalList_result_wf tl I vdist af
        (searchGeneric I vdist n af s).2 hok hk2 r hr2

end

theorem sorted_eq_of_mem_iff (l1 l2 : List Nat) (h1 : List.Sorted (· < ·) l1)
    (h2 : List.Sorted (· < ·) l2) (h : ∀ x, x ∈ l1 ↔ x ∈ l2) : l1 = l2 := by
  haveI : IsAntisymm Nat (· < ·) := ⟨fun a b ha hb => by omega⟩
  haveI : IsIrrefl Nat (· < ·) := ⟨fun a => by omega⟩
  exact List.eq_of_perm_of_sorted
    ((List.perm_ext_iff_of_nodup h1.nodup h2.nodup).mpr h) h1 h2

theorem negateResult_negateResult (all m : List Nat)
    (hall : List.Sorted (· < ·) all) (hm : List.Sorted (· < ·) m)
    (hsub : ∀ d ∈ m, d ∈ all) :
    negateResult all (negateResult all m) = m := by
  apply sorted_eq_of_mem_iff
  · exact List.Sorted.filter _ hall
  · exact hm
  · intro x
    unfold negateResult
    simp only [List.mem_filter, Bool.not_eq_true', ← Bool.not_eq_true, List.elem_iff,
      List.mem_filter]
    constructor
    · rintro ⟨hx, hn⟩
      by_contra hxm
      exact hn ⟨hx, fun hc => hxm hc⟩
    · intro hxm
      exact ⟨hsub x hxm, fun hc => hc.2 hxm⟩

/-- Step equation: the Negate node with error_ empty. -/
theorem searchGeneric_negate_eq (I : MIndices) (vdist : List Nat → List Nat → Nat)
    (child : AstNode) (af : String) (s : EvalState) (h : s.error = "") :
    (searchGeneric I vdist (.negate child) af s).1 =
      negateResult I.allIds (searchGeneric I vdist child af (profStart s)).1 := by
  rw [searchGeneric]
  simp [h]

/-- C6: for every KNN-free query q evaluated against a fixed FieldIndices
whose posting lists are sorted-unique and contained in all_ids, evaluating
Negate(Negate(q)) returns exactly the same DocId list as evaluating q:
double complement against all_ids is the identity on results contained in
all_ids. -/
theorem negate_negate_id (I : MIndices) (vdist : List Nat → List Nat → Nat)
    (q : AstNode) (af : String) (s : EvalState) (hok : PostingsOk I)
    (hk : knnFree q = true) :
    (searchGeneric I vdist (.negate (.negate q)) af s).1 =
      (searchGeneric I vdist q af s).1 := by
  by_cases h1 : s.error = ""
  · rw [searchGeneric_negate_eq I vdist (.negate q) af s h1]
    rw [searchGeneric_negate_eq I vdist q af (profStart s)
      (by rw [profStart_error]; exact h1)]
    have hsim := (searchGeneric_state_sim q I vdist af (profStart (profStart s)) s hk
      (by rw [profStart_error, profStart_error])).1
    rw [hsim]
    have hq := searchGeneric_result_wf q I vdist af s hok hk
    exact negateResult_negateResult I.allIds _ hok.1 hq.1 hq.2
  · rw [searchGeneric_error_ne I vdist _ af s h1, searchGeneric_error_ne I vdist q af s h1]

theorem wrap_step (s inner : EvalState) (len : Nat) (P : Prop)
    (hd : inner.depth = s.depth + 1) (ev0 : List ProfileEvent)
    (hevents : inner.events = s.events ++ ev0)
    (hbound : ∀ e ∈ ev0, s.depth + 1 ≤ e.depth) :
    (profFinish inner len).depth = s.depth ∧
    ∃ ev, (profFinish inner len).events = s.events ++ ev ∧
      (∀ e ∈ ev, s.depth ≤ e.depth) ∧
      (P → ∃ pre last, ev = pre ++ [last] ∧ last.depth = s.depth) := by
  constructor
  · simp [profFinish, hd]
  · refine ⟨ev0 ++ [⟨s.depth, len⟩], ?_, ?_,
      fun _ => ⟨ev0, ⟨s.depth, len⟩, rfl, rfl⟩⟩
    · simp [profFinish, hevents, hd]
    · intro e he
      rcases List.mem_append.mp he with h | h
      · exact Nat.le_of_succ_le (hbound e h)
      · rcases List.mem_singleton.mp h with rfl
        exact Nat.le_refl _

mutual

theorem searchGeneric_depth (n : AstNode) :
    ∀ (I : MIndices) (vdist : List Nat → List Nat → Nat) (af : String)
      (s : EvalState),
    (searchGeneric I vdist n af s).2.depth = s.depth ∧
    ∃ ev, (searchGeneric I vdist n af s).2.events = s.events ++ ev ∧
      (∀ e ∈ ev, s.depth ≤ e.depth) ∧
      (s.error = "" → ∃ pre last, ev = pre ++ [last] ∧ last.depth = s.depth) := by
  intro I vdist af s
  by_cases h1 : s.error = ""
  · cases n with
    | star =>
      rw [searchGeneric]
      simp only [ne_eq, h1, not_true_eq_false, if_false]
      exact wrap_step s _ _ _ rfl [] (by simp [profStart]) (by simp)
    | term word =>
      rw [searchGeneric]
      simp only [ne_eq, h1, not_true_eq_false, if_false]
      by_cases haf : af = ""
      · subst haf
        simp only [ne_eq, not_true_eq_false, if_false]
        exact wrap_step s _ _ _ rfl [] (by simp [profStart]) (by simp)
      · simp only [if_pos haf]
        cases hget : GetTextIndex I af with
        | ok m => exact wrap_step s _ _ _ rfl [] (by simp [profStart]) (by simp)
        | error e => exact wrap_step s _ _ _ rfl [] (by simp [profStart]) (by simp)
    | fieldNode f child =>
      have hrec := searchGeneric_depth child I vdist f (profStart s)
      obtain ⟨ev0, hev0, hb0, _⟩ := hrec.2
      rw [searchGeneric]
      simp only [ne_eq, h1, not_true_eq_false, if_false]
      exact wrap_step s _ _ _ hrec.1 ev0 hev0 hb0
    | logical op children =>
      have hrec := evalList_depth children I vdist af (profStart s)
      obtain ⟨ev0, hev0, hb0⟩ := hrec.2
      rw [searchGeneric]
      simp only [ne_eq, h1, not_true_eq_false, if_false]
      exact wrap_step s _ _ _ hrec.1 ev0 hev0 hb0
    | negate child =>
      have hrec := searchGeneric_depth child I vdist af (profStart s)
      obtain ⟨ev0, hev0, hb0, _⟩ := hrec.2
      rw [searchGeneric]
      simp only [ne_eq, h1, not_true_eq_false, if_false]
      exact wrap_step s _ _ _ hrec.1 ev0 hev0 hb0
    | knn limit f qvec filt =>
      have hrec := searchGeneric_depth filt I vdist af (profStart s)
      obtain ⟨ev0, hev0, hb0, _⟩ := hrec.2
      rw [searchGeneric]
      simp only [ne_eq, h1, not_true_eq_false, if_false]
      cases hget : GetVectorIndex I f with
      | error e => exact wrap_step s _ _ _ hrec.1 ev0 hev0 hb0
      | ok vi =>
        by_cases hdim : vi.dim ≠ qvec.length
        · simp only [if_pos hdim]
          exact wrap_step s _ _ _ hrec.1 ev0 hev0 hb0
        · simp only [if_neg hdim]
          exact wrap_step s _ _ _ hrec.1 ev0 hev0 hb0
  · rw [searchGeneric_error_ne I vdist n af s h1]
    exact ⟨rfl, [], by simp, by simp, fun h => absurd h h1⟩

theorem evalList_depth (l : AstNodeList) :
    ∀ (I : MIndices) (vdist : List Nat → List Nat → Nat) (af : String)
      (s : EvalState),
    (evalList I vdist l af s).2.depth = s.depth ∧
    ∃ ev, (evalList I vdist l af s).2.events = s.events ++ ev ∧
      ∀ e ∈ ev, s.depth ≤ e.depth := by
  intro I vdist af s
  cases l with
  | nil =>
    rw [evalList]
    exact ⟨rfl, [], by simp, by simp⟩
  | cons n tl =>
    have h1 := searchGeneric_depth n I vdist af s
    obtain ⟨ev1, hev1, hb1, _⟩ := h1.2
    have h2 := evalList_depth tl I vdist af (searchGeneric I vdist n af s).2
    obtain ⟨ev2, hev2, hb2⟩ := h2.2
    rw [evalList]
    constructor
    · rw [h2.1, h1.1]
    · refine ⟨ev1 ++ ev2, ?_, ?_⟩
      · rw [hev2, hev1, List.append_assoc]
      · intro e he
        rcases List.mem_append.mp he with h | h
        · exact hb1 e h
        · exact h1.1 ▸ hb2 e h

end

mutual

theorem searchGeneric_knn_buffers (n : AstNode) :
    ∀ (I : MIndices) (vdist : List Nat → List Nat → Nat) (af : String)
      (s : EvalState), knnFree n = true →
    (searchGeneric I vdist n af s).2.knnDistances = s.knnDistances ∧
    (searchGeneric I vdist n af s).2.knnScores = s.knnScores := by
  intro I vdist af s hk
  by_cases h1 : s.error = ""
  · cases n with
    | star =>
      rw [searchGeneric]
      simp [h1, profFinish, profStart]
    | term word =>
      rw [searchGeneric]
      simp only [ne_eq, h1, not_true_eq_false, if_false]
      by_cases haf : af = ""
      · subst haf
        simp [profFinish, profStart]
      · simp only [if_pos haf]
        cases hget : GetTextIndex I af with
        | ok m => simp [profFinish, profStart]
        | error e => simp [profFinish, profStart]
    | fieldNode f child =>
      have hk2 : knnFree child = true := by simpa [knnFree] using hk
      have hrec := searchGeneric_knn_buffers child I vdist f (profStart s) hk2
      rw [searchGeneric]
      simp only [ne_eq, h1, not_true_eq_false, if_false]
      simpa [profFinish, profStart] using hrec
    | logical op children =>
      have hk2 : knnFreeList children = true := by simpa [knnFree] using hk
      have hrec := evalList_knn_buffers children I vdist af (profStart s) hk2
      rw [searchGeneric]
      simp only [ne_eq, h1, not_true_eq_false, if_false]
      simpa [profFinish, profStart] using hrec
    | negate child =>
      have hk2 : knnFree child = true := by simpa [knnFree] using hk
      have hrec := searchGeneric_knn_buffers child I vdist af (profStart s) hk2
      rw [searchGeneric]
      simp only [ne_eq, h1, not_true_eq_false, if_false]
      simpa [profFinish, profStart] using hrec
    | knn limit f qvec filt => simp [knnFree] at hk
  · rw [searchGeneric_error_ne I vdist n af s h1]
    exact ⟨rfl, rfl⟩

theorem evalList_knn_buffers (l : AstNodeList) :
    ∀ (I : MIndices) (vdist : List Nat → List Nat → Nat) (af : String)
      (s : EvalState), knnFreeList l = true →
    (evalList I vdist l af s).2.knnDistances = s.knnDistances ∧
    (evalList I vdist l af s).2.knnScores = s.knnScores := by
  intro I vdist af s hk
  cases l with
  | nil =>
    rw [evalList]
    exact ⟨rfl, rfl⟩
  | cons n tl =>
    have hk1 : knnFree n = true := by
      simp [knnFreeList] at hk
      exact hk.1
    have hk2 : knnFreeList tl = true := by
      simp [knnFreeList] at hk
      exact hk.2
    have h1 := searchGeneric_knn_buffers n I vdist af s hk1
    have h2 := evalList_knn_buffers tl I vdist af (searchGeneric I vdist n af s).2 hk2
    rw [evalList]
    exact ⟨by rw [h2.1, h1.1], by rw [h2.2, h1.2]⟩

end

theorem flatRanked_length (vdist : List Nat → List Nat → Nat) (vi : FlatVectorIndex)
    (limit : Nat) (qvec : List Nat) (buf : List (Nat × Nat)) (sub : List Nat) :
    (flatRanked vdist vi limit qvec buf sub).length ≤ limit := by
  unfold flatRanked
  simp only [List.length_take]
  omega

theorem flatRanked_mem (vdist : List Nat → List Nat → Nat) (vi : FlatVectorIndex)
    (limit : Nat) (qvec : List Nat) (buf : List (Nat × Nat)) (sub : List Nat) :
    ∀ p ∈ flatRanked vdist vi limit qvec buf sub,
      p ∈ buf ∨ p ∈ sub.map (fun d => (vdist qvec (vi.vecs d), d)) := by
  intro p hp
  unfold flatRanked at hp
  have h2 := List.take_subset _ _ hp
  have h3 := (List.perm_insertionSort pairRel _).subset h2
  exact List.mem_append.mp h3

theorem flatRanked_pairwise (vdist : List Nat → List Nat → Nat) (vi : FlatVectorIndex)
    (limit : Nat) (qvec : List Nat) (buf : List (Nat × Nat)) (sub : List Nat) :
    List.Pairwise pairRel (flatRanked vdist vi limit qvec buf sub) := by
  unfold flatRanked
  exact List.Pairwise.sublist (List.take_sublist _ _)
    (List.sorted_insertionSort pairRel _)

/-- Step equation: the Knn node over a flat index with matching dimensions
and error_ empty. -/
theorem searchGeneric_knn_eq (I : MIndices) (vdist : List Nat → List Nat → Nat)
    (limit : Nat) (f : String) (qvec : List Nat) (filt : AstNode) (af : String)
    (s : EvalState) (h : s.error = "") (vi : FlatVectorIndex)
    (hget : GetVectorIndex I f = Except.ok vi) (hdim : vi.dim = qvec.length) :
    (searchGeneric I vdist (.knn limit f qvec filt) af s).1 =
      (flatRanked vdist vi limit qvec
        (searchGeneric I vdist filt af (profStart s)).2.knnDistances
        (searchGeneric I vdist filt af (profStart s)).1).map (fun p => p.2) := by
  rw [searchGeneric]
  simp [h, hget, hdim, searchKnnFlat]

/-- C8: a KNN node evaluated against a flat vector index with matching
dimensions — from a state with an empty knn_distances_ buffer, i.e. as the
first KNN of the query — returns at most limit DocIds, ordered by
non-decreasing distance between the stored vectors and the query vector,
and every returned DocId is an element of the filter subtree result. -/
theorem knn_flat_postconditions (I : MIndices) (vdist : List Nat → List Nat → Nat)
    (limit : Nat) (f : String) (qvec : List Nat) (filt : AstNode) (af : String)
    (s : EvalState) (vi : FlatVectorIndex) (hs : s.error = "")
    (hbuf : s.knnDistances = []) (hk : knnFree filt = true)
    (hget : GetVectorIndex I f = Except.ok vi) (hdim : vi.dim = qvec.length) :
    KnnFlatOutcome I vdist limit f qvec filt af s vi := by
  have heq := searchGeneric_knn_eq I vdist limit f qvec filt af s hs vi hget hdim
  have hbuf2 : (searchGeneric I vdist filt af (profStart s)).2.knnDistances = [] := by
    rw [(searchGeneric_knn_buffers filt I vdist af (profStart s) hk).1]
    exact hbuf
  rw [hbuf2] at heq
  have hsim := (searchGeneric_state_sim filt I vdist af (profStart s) s hk
    (by rw [profStart_error])).1
  rw [hsim] at heq
  have hmem := flatRanked_mem vdist vi limit qvec []
    (searchGeneric I vdist filt af s).1
  have hfst : ∀ p ∈ flatRanked vdist vi limit qvec []
      (searchGeneric I vdist filt af s).1, p.1 = vdist qvec (vi.vecs p.2) := by
    intro p hp
    rcases hmem p hp with h | h
    · simp at h
    · rcases List.mem_map.mp h with ⟨d, _, rfl⟩
      rfl
  refine ⟨?_, ?_, ?_⟩
  · rw [heq, List.length_map]
    exact flatRanked_length vdist vi limit qvec _ _
  · rw [heq, List.map_map]
    have hcongr : (flatRanked vdist vi limit qvec []
        (searchGeneric I vdist filt af s).1).map
          ((fun d => vdist qvec (vi.vecs d)) ∘ (fun p => p.2)) =
        (flatRanked vdist vi limit qvec []
          (searchGeneric I vdist filt af s).1).map (fun p => p.1) := by
      apply List.map_congr_left
      intro p hp
      exact (hfst p hp).symm
    rw [hcongr]
    rw [List.chain'_iff_pairwise]
    refine List.Pairwise.map (fun p => p.1) ?_
      (flatRanked_pairwise vdist vi limit qvec [] _)
    intro a b hab
    unfold pairRel at hab
    show a.1 ≤ b.1
    omega
  · intro d hd
    rw [heq] at hd
    rcases List.mem_map.mp hd with ⟨p, hp, rfl⟩
    rcases hmem p hp with h | h
    · simp at h
    · rcases List.mem_map.mp h with ⟨d0, hd0, heq2⟩
      rw [← heq2]
      exact hd0

/-- C7 (amended): errors are sticky in the short-circuit sense: once the
evaluator error string is set, every subsequently evaluated node returns an
empty result and leaves the state untouched, and the top-level Search
returns a SearchResult carrying the evaluator state final error string and
the ids the top-level node computed.  The error carried is the last one
recorded (a KNN node can overwrite an error set inside its filter subtree),
and the ids may be non-empty when parts of the query succeeded before the
error. -/
theorem sticky_error_short_circuit (I : MIndices)
    (vdist : List Nat → List Nat → Nat) : StickyErrorOutcome I vdist :=
  ⟨fun n af s h => searchGeneric_error_ne I vdist n af s h, fun _ => ⟨rfl, rfl⟩⟩

theorem sticky_error_short_circuit_witness :
    (EvalState.mk "E" [] [] 0 0 []).error ≠ "" ∧
    searchGeneric (MIndices.mk [] [] []) (fun _ _ => 0) .star ""
      (EvalState.mk "E" [] [] 0 0 []) = ([], EvalState.mk "E" [] [] 0 0 []) :=
  ⟨by decide,
    (sticky_error_short_circuit (MIndices.mk [] [] []) (fun _ _ => 0)).1 .star ""
      (EvalState.mk "E" [] [] 0 0 []) (by decide)⟩

/-- C7 counterexample: a concrete run refuting the claim as stated: the returned error is not the first
error set ("Invalid field: b") but the last ("Invalid field: c"), and the
ids list is non-empty despite the error. -/
theorem sticky_error_counterexample :
    (Search errFI (fun _ _ => 0) errQuery).error = "Invalid field: c" ∧
    (Search errFI (fun _ _ => 0) errQuery).ids = [1] ∧
    "Invalid field: c" ≠ "Invalid field: b" ∧ ([1] : List Nat) ≠ [] := by
  refine ⟨by decide, ?_, by decide, by decide⟩
  simp [Search, searchGeneric, evalList, UnifyResults, Merge, setUnion, setIntersection, negateResult, GetTextIndex, GetVectorIndex, searchKnnFlat, flatRanked, profStart, profFinish, initEvalState, List.insertionSort, List.orderedInsert, List.lookup, pairRel, errFI, errQuery]

/-- C9: profile events carry correct nesting depths: evaluating a node
whose entry depth is d restores depth d, appends the node own event with
depth exactly d as the last new event, and every event of the nested
evaluations carries a depth of at least d (inductively, their own entry
depths).  The fresh evaluator starts with depth 0 — BasicSearch default
member initializer ProfileBuilder{} value-initializes the builder, which
zero-initializes depth_ — so the root node event carries depth 0 and every
event carries its node nesting depth. -/
theorem profile_event_depth (I : MIndices) (vdist : List Nat → List Nat → Nat)
    (n : AstNode) (af : String) (s : EvalState) (h : s.error = "") :
    ProfileDepthOutcome I vdist n af s ∧ initEvalState.depth = 0 := by
  have hd := searchGeneric_depth n I vdist af s
  obtain ⟨ev, hev, hb, hlast⟩ := hd.2
  obtain ⟨pre, last, hpl, hld⟩ := hlast h
  exact ⟨⟨hd.1, ev, pre, last, hev, hb, hpl, hld⟩, rfl⟩

theorem profile_event_depth_witness :
    initEvalState.error = "" ∧
    (ProfileDepthOutcome (MIndices.mk [1] [] []) (fun _ _ => 0) .star ""
      initEvalState ∧ initEvalState.depth = 0) :=
  ⟨rfl, profile_event_depth (MIndices.mk [1] [] []) (fun _ _ => 0) .star ""
    initEvalState rfl⟩

theorem negate_negate_id_witness :
    PostingsOk negnegFI ∧ knnFree (.term "x") = true ∧
    (searchGeneric negnegFI (fun _ _ => 0) (.negate (.negate (.term "x"))) ""
      initEvalState).1 =
      (searchGeneric negnegFI (fun _ _ => 0) (.term "x") "" initEvalState).1 := by
  have hok : PostingsOk negnegFI := by
    constructor
    · decide
    · intro p hp w
      have hp2 : p = ("t", fun _ => [1]) := by simpa [negnegFI] using hp
      subst hp2
      constructor
      · show List.Sorted (· < ·) [1]
        decide
      · intro d hd
        have : d = 1 := by simpa using hd
        subst this
        decide
  exact ⟨hok, by decide,
    negate_negate_id negnegFI (fun _ _ => 0) (.term "x") "" initEvalState hok
      (by decide)⟩

theorem knn_flat_postconditions_witness :
    (initEvalState.error = "" ∧ initEvalState.knnDistances = [] ∧
      knnFree .star = true ∧
      GetVectorIndex knnWitFI "v" = Except.ok ⟨1, fun d => [d]⟩ ∧
      (FlatVectorIndex.mk 1 (fun d => [d])).dim = ([0] : List Nat).length) ∧
    KnnFlatOutcome knnWitFI (fun q v => v.headD 0 * 10 + q.headD 0) 1 "v" [0]
      .star "" initEvalState ⟨1, fun d => [d]⟩ :=
  ⟨⟨rfl, rfl, rfl, rfl, rfl⟩,
    knn_flat_postconditions knnWitFI (fun q v => v.headD 0 * 10 + q.headD 0) 1 "v"
      [0] .star "" initEvalState ⟨1, fun d => [d]⟩ rfl rfl rfl rfl rfl⟩

/-- C10: on a concrete two-KNN query: after the filter subtree
ran the inner KNN, knn_distances_ still holds the inner pairs
[(10,1), (20,2)] (never cleared) while knn_scores_ holds the inner scores
(cleared only at the start of the next KNN); the outer flat KNN therefore
ranks the leftover pairs together with its own and returns doc 1, which is
not in its filter's result [2]. -/
theorem knn_distance_buffer_leak :
    (searchGeneric leakFI leakDist leakFilter ""
      (profStart initEvalState)).2.knnDistances = [(10, 1), (20, 2)] ∧
    (searchGeneric leakFI leakDist leakFilter ""
      (profStart initEvalState)).2.knnScores = [(1, 10), (2, 20)] ∧
    (searchGeneric leakFI leakDist leakFilter "" initEvalState).1 = [2] ∧
    (Search leakFI leakDist leakOuter).ids = [1, 2] ∧
    (1 ∈ (Search leakFI leakDist leakOuter).ids ∧
      1 ∉ (searchGeneric leakFI leakDist leakFilter "" initEvalState).1) ∧
    (Search leakFI leakDist leakOuter).knnScores = [(1, 10), (2, 20)] := by
  refine ⟨by decide, by decide, ?_, ?_, ⟨?_, ?_⟩, ?_⟩ <;>
    simp [Search, searchGeneric, evalList, UnifyResults, Merge, setUnion, setIntersection, negateResult, GetTextIndex, GetVectorIndex, searchKnnFlat, flatRanked, profStart, profFinish, initEvalState, List.insertionSort, List.orderedInsert, List.lookup, pairRel, leakFI, leakDist, leakInner, leakFilter, leakOuter]

end DflySearch
